import Mathlib

/-!
Verification of the element-kernel layer of the TACS finite-element toolkit:
the PoissonQuad element (src/elements/PoissonElement.h) and the
TACSBeamConstitutive constitutive relation.  Numerical code working on
TacsScalar (double) is embedded over an arbitrary field `F` (instantiated at
ℝ or ℚ in the theorems); flat C arrays are embedded as functions `ℕ → F`.
-/

namespace TACS

/-- Value at `x` of the `i`-th Lagrange basis function over the first `n`
entries of the knot array.
Modelled from the spec: `FElibrary::lagrangeSFKnots` is not part of the
excerpt; the spec (§4.2) describes the basis as Lagrange interpolation over a
per-axis knot vector. -/
def lagrangeSF {F : Type} [Field F] (n : ℕ) (knots : ℕ → F) (x : F) (i : ℕ) : F :=
  ∏ j in (Finset.range n).erase i, (x - knots j) / (knots i - knots j)

/-- Derivative at `x` of the `i`-th Lagrange basis function over the first `n`
knots.
Modelled from the spec: the derivative output `dna` of
`FElibrary::lagrangeSFKnots`, which is not part of the excerpt. -/
def lagrangeSFDeriv {F : Type} [Field F] (n : ℕ) (knots : ℕ → F) (x : F) (i : ℕ) : F :=
  ∑ m in (Finset.range n).erase i,
    (∏ j in ((Finset.range n).erase i).erase m, (x - knots j)) /
      ∏ j in (Finset.range n).erase i, (knots i - knots j)

/-- Embeds `PoissonQuad::getShapeFunctions`: tensor-product shape function `N[p]` at
the parametric point `(x, y)`.  The node loop runs `j` (eta) outer and `i`
(xi) inner, so node `p` has xi-index `p % order` and eta-index `p / order`. -/
def shapeN {F : Type} [Field F] (order : ℕ) (knots : ℕ → F) (x y : F) (p : ℕ) : F :=
  lagrangeSF order knots x (p % order) * lagrangeSF order knots y (p / order)

/-- Embeds `PoissonQuad::getShapeFunctions`: xi-derivative `Na[p]`. -/
def shapeNa {F : Type} [Field F] (order : ℕ) (knots : ℕ → F) (x y : F) (p : ℕ) : F :=
  lagrangeSFDeriv order knots x (p % order) * lagrangeSF order knots y (p / order)

/-- Embeds `PoissonQuad::getShapeFunctions`: eta-derivative `Nb[p]`. -/
def shapeNb {F : Type} [Field F] (order : ℕ) (knots : ℕ → F) (x y : F) (p : ℕ) : F :=
  lagrangeSF order knots x (p % order) * lagrangeSFDeriv order knots y (p / order)

/-- A 2x2 matrix stored as in the C arrays `Xd[4]` / `J[4]`:
`a = Xd[0], b = Xd[1], c = Xd[2], d = Xd[3]`. -/
structure Mat2 (F : Type) where
  a : F
  b : F
  c : F
  d : F

/-- Embeds `PoissonQuad::getJacobianTransform`: accumulates
`Xd[0] += Na[i]*Xpts[3i]`, `Xd[1] += Nb[i]*Xpts[3i]`,
`Xd[2] += Na[i]*Xpts[3i+1]`, `Xd[3] += Nb[i]*Xpts[3i+1]`. -/
def getJacobianTransform {F : Type} [Field F] (order : ℕ) (knots Xpts : ℕ → F)
    (x y : F) : Mat2 F :=
  ⟨∑ i in Finset.range (order * order), shapeNa order knots x y i * Xpts (3 * i),
   ∑ i in Finset.range (order * order), shapeNb order knots x y i * Xpts (3 * i),
   ∑ i in Finset.range (order * order), shapeNa order knots x y i * Xpts (3 * i + 1),
   ∑ i in Finset.range (order * order), shapeNb order knots x y i * Xpts (3 * i + 1)⟩

/-- Determinant of a 2x2 matrix, `Xd[0]*Xd[3] - Xd[1]*Xd[2]`. -/
def det2 {F : Type} [Field F] (m : Mat2 F) : F :=
  m.a * m.d - m.b * m.c

/-- The 2x2 inverse.
Modelled from the spec: `FElibrary::jacobian2d` is not part of the excerpt;
the spec (§4.3) describes it as the straightforward 2x2 inverse together with
the determinant, which the callers use as the volume factor `h`. -/
def inv2 {F : Type} [Field F] (m : Mat2 F) : Mat2 F :=
  ⟨m.d / det2 m, -m.b / det2 m, -m.c / det2 m, m.a / det2 m⟩

/-- Embeds `Nxi = Na[i]*J[0] + Nb[i]*J[2]`: physical x-derivative of shape `i`. -/
def shapeNx {F : Type} [Field F] (order : ℕ) (knots Xpts : ℕ → F) (x y : F) (i : ℕ) : F :=
  shapeNa order knots x y i * (inv2 (getJacobianTransform order knots Xpts x y)).a +
    shapeNb order knots x y i * (inv2 (getJacobianTransform order knots Xpts x y)).c

/-- Embeds `Nyi = Na[i]*J[1] + Nb[i]*J[3]`: physical y-derivative of shape `i`. -/
def shapeNy {F : Type} [Field F] (order : ℕ) (knots Xpts : ℕ → F) (x y : F) (i : ℕ) : F :=
  shapeNa order knots x y i * (inv2 (getJacobianTransform order knots Xpts x y)).b +
    shapeNb order knots x y i * (inv2 (getJacobianTransform order knots Xpts x y)).d

/-- Pointwise-additive update of a flat buffer: adds `g i` to entry `i`. -/
def addInto {F : Type} [Field F] (g : ℕ → F) (buf : ℕ → F) : ℕ → F :=
  fun i => buf i + g i

/-- A single C accumulation statement `buf[k] += v`. -/
def addAt {F : Type} [Field F] (k : ℕ) (v : F) : (ℕ → F) → ℕ → F :=
  addInto (fun idx => if idx = k then v else 0)

/-- The amount `addResidual` adds to `res[i]` at quadrature point `(n, m)`
(point `pt = (pts[n], pts[m])`, weight `wts[n]*wts[m]`):
`h*(Nxi*px + Nyi*py - fval*N[i])` with `h = detJ * wts[n]*wts[m]`. -/
def resContrib {F : Type} [Field F] (order : ℕ) (pts wts knots f Xpts vars : ℕ → F)
    (m n i : ℕ) : F :=
  let x := pts n
  let y := pts m
  let h := det2 (getJacobianTransform order knots Xpts x y) * (wts n * wts m)
  let fval := ∑ j in Finset.range (order * order), shapeN order knots x y j * f j
  let px := ∑ j in Finset.range (order * order), shapeNx order knots Xpts x y j * vars j
  let py := ∑ j in Finset.range (order * order), shapeNy order knots Xpts x y j * vars j
  h * (shapeNx order knots Xpts x y i * px + shapeNy order knots Xpts x y i * py -
    fval * shapeN order knots x y i)

/-- Embeds `PoissonQuad::addResidual`.  The two outer loops run over the tensor
quadrature points (`m` eta-index, `n` xi-index); the inner node loop performs
`res[i] += h*(Nxi*px + Nyi*py - fval*N[i])` for each `i < order*order`.
`time`, `dvars` and `ddvars` are unused, exactly as in the code. -/
def addResidual {F : Type} [Field F] (order : ℕ) (pts wts knots f : ℕ → F)
    (time : F) (Xpts vars dvars ddvars : ℕ → F) (res : ℕ → F) : ℕ → F :=
  (List.range order).foldl (fun r m =>
    (List.range order).foldl (fun r2 n =>
      (List.range (order * order)).foldl (fun r3 i =>
        addAt i (resContrib order pts wts knots f Xpts vars m n i) r3) r2) r) res

/-- Total amount `addResidual` adds to `res[i]`, summed over all quadrature
points.  It depends only on the element data `(pts, wts, knots, f)` and on
`(Xpts, vars)`: not on `time`, `dvars`, `ddvars` or the incoming buffer. -/
def resTotal {F : Type} [Field F] (order : ℕ) (pts wts knots f Xpts vars : ℕ → F)
    (i : ℕ) : F :=
  if i < order * order then
    ∑ m in Finset.range order, ∑ n in Finset.range order,
      resContrib order pts wts knots f Xpts vars m n i
  else 0

/-- The amount `addJacobian` adds to `mat[i + j*order*order]` at quadrature
point `(n, m)`: `h*(Nxi*Nxj + Nyi*Nyj)` with
`h = detJ * alpha * wts[n]*wts[m]`. -/
def jacContrib {F : Type} [Field F] (order : ℕ) (pts wts knots Xpts : ℕ → F)
    (alpha : F) (m n i j : ℕ) : F :=
  let x := pts n
  let y := pts m
  let h := det2 (getJacobianTransform order knots Xpts x y) * (alpha * (wts n * wts m))
  h * (shapeNx order knots Xpts x y i * shapeNx order knots Xpts x y j +
    shapeNy order knots Xpts x y i * shapeNy order knots Xpts x y j)

/-- Embeds `PoissonQuad::addJacobian`.  The two outer loops run over the tensor
quadrature points; the inner double node loop performs
`mat[i + j*order*order] += h*(Nxi*Nxj + Nyi*Nyj)` for `j` outer, `i` inner.
`time`, `beta`, `gamma`, `vars`, `dvars` and `ddvars` are unused, exactly as
in the code. -/
def addJacobian {F : Type} [Field F] (order : ℕ) (pts wts knots : ℕ → F)
    (time alpha beta gamma : F) (Xpts vars dvars ddvars : ℕ → F)
    (mat : ℕ → F) : ℕ → F :=
  (List.range order).foldl (fun r m =>
    (List.range order).foldl (fun r2 n =>
      (List.range (order * order)).foldl (fun r3 j =>
        (List.range (order * order)).foldl (fun r4 i =>
          addAt (i + j * (order * order))
            (jacContrib order pts wts knots Xpts alpha m n i j) r4) r3) r2) r) mat

/-- Total amount `addJacobian` adds to matrix entry `(i, j)` (stored at flat
index `i + j*order*order`), summed over all quadrature points. -/
def jacTotal {F : Type} [Field F] (order : ℕ) (pts wts knots Xpts : ℕ → F)
    (alpha : F) (i j : ℕ) : F :=
  ∑ m in Finset.range order, ∑ n in Finset.range order,
    jacContrib order pts wts knots Xpts alpha m n i j

/-- Embeds the per-quadrature-point scalar of `PoissonQuad::addLocalizedError`:
`product = h*(ax*px + ay*py - adj*fval)`. -/
def errProduct {F : Type} [Field F] (order : ℕ) (pts wts knots f Xpts vars adjoint : ℕ → F)
    (m n : ℕ) : F :=
  let x := pts n
  let y := pts m
  let h := det2 (getJacobianTransform order knots Xpts x y) * (wts n * wts m)
  let fval := ∑ j in Finset.range (order * order), shapeN order knots x y j * f j
  let adj := ∑ j in Finset.range (order * order), shapeN order knots x y j * adjoint j
  let px := ∑ j in Finset.range (order * order), shapeNx order knots Xpts x y j * vars j
  let py := ∑ j in Finset.range (order * order), shapeNy order knots Xpts x y j * vars j
  let ax := ∑ j in Finset.range (order * order), shapeNx order knots Xpts x y j * adjoint j
  let ay := ∑ j in Finset.range (order * order), shapeNy order knots Xpts x y j * adjoint j
  h * (ax * px + ay * py - adj * fval)

/-- The bilinear partition-of-unity weights `Nerr[0..3]` evaluated at the
parametric point `(x, y)`:
`Nerr = 0.25*(1 ∓ x)*(1 ∓ y)` in the corner order of the code. -/
def nerrWeight {F : Type} [Field F] (x y : F) : ℕ → F
  | 0 => 1 / 4 * ((1 - x) * (1 - y))
  | 1 => 1 / 4 * ((1 + x) * (1 - y))
  | 2 => 1 / 4 * ((1 - x) * (1 + y))
  | _ => 1 / 4 * ((1 + x) * (1 + y))

/-- The four node indices `0, order-1, order*(order-1), order*order-1` that
receive the localized error, in the order of the four `err[...] += ...`
statements. -/
def cornerIdx (order : ℕ) : ℕ → ℕ
  | 0 => 0
  | 1 => order - 1
  | 2 => order * (order - 1)
  | _ => order * order - 1

/-- Embeds `PoissonQuad::addLocalizedError`.  Per quadrature point the code executes
the four statements `err[cornerIdx c] += Nerr[c]*product` in order
`c = 0, 1, 2, 3`. -/
def addLocalizedError {F : Type} [Field F] (order : ℕ) (pts wts knots f : ℕ → F)
    (time : F) (adjoint Xpts vars : ℕ → F) (err : ℕ → F) : ℕ → F :=
  (List.range order).foldl (fun r m =>
    (List.range order).foldl (fun r2 n =>
      let product := errProduct order pts wts knots f Xpts vars adjoint m n
      addAt (cornerIdx order 3) (nerrWeight (pts n) (pts m) 3 * product)
        (addAt (cornerIdx order 2) (nerrWeight (pts n) (pts m) 2 * product)
          (addAt (cornerIdx order 1) (nerrWeight (pts n) (pts m) 1 * product)
            (addAt (cornerIdx order 0) (nerrWeight (pts n) (pts m) 0 * product) r2)))) r) err

/-- A single C assignment `con[k] = v` on an int buffer. -/
def writeAt (k : ℕ) (v : ℤ) (con : ℕ → ℤ) : ℕ → ℤ :=
  fun idx => if idx = k then v else con idx

/-- The four connectivity writes of `PoissonQuad::getOutputConnectivity` for
sub-quad counter `p`; the loop counters are recovered as `n = p % (order-1)`
(inner) and `m = p / (order-1)` (outer), matching the increment of `p` in the code per
`(m, n)` pair. -/
def quadWrite (order : ℕ) (node : ℤ) (p : ℕ) (con : ℕ → ℤ) : ℕ → ℤ :=
  let n := p % (order - 1)
  let m := p / (order - 1)
  writeAt (4 * p + 3) (node + n + (m + 1) * order)
    (writeAt (4 * p + 2) (node + (n + 1) + (m + 1) * order)
      (writeAt (4 * p + 1) (node + (n + 1) + m * order)
        (writeAt (4 * p) (node + n + m * order) con)))

/-- Embeds `PoissonQuad::getOutputConnectivity`: the nested `(m, n)` loops visit the
sub-quad counter `p = n + m*(order-1)` in increasing order `0, 1, 2, ...`,
writing `con[4p .. 4p+3]` for each. -/
def getOutputConnectivity (order : ℕ) (node : ℤ) (con : ℕ → ℤ) : ℕ → ℤ :=
  (List.range ((order - 1) * (order - 1))).foldl
    (fun c p => quadWrite order node p c) con

/-- The value `getOutputConnectivity` leaves in `con[4*p + c]` for sub-quad
`p` and corner `c`: with `n = p % (order-1)` and `m = p / (order-1)` the four
corners are `node + n + m*order`, `node + n+1 + m*order`,
`node + n+1 + (m+1)*order`, `node + n + (m+1)*order`. -/
def quadVal (order : ℕ) (node : ℤ) (p c : ℕ) : ℤ :=
  let n := p % (order - 1)
  let m := p / (order - 1)
  if c = 0 then node + n + m * order
  else if c = 1 then node + (n + 1) + m * order
  else if c = 2 then node + (n + 1) + (m + 1) * order
  else node + n + (m + 1) * order

/-- Embeds `PoissonQuad::stressName`: `"px"` for 0, `"py"` for 1, `NULL` otherwise;
the C `NULL` sentinel is embedded as `none`.  The argument is `ℤ` since the
C parameter is a signed `int`. -/
def stressName (i : ℤ) : Option String :=
  if i = 0 then some "px" else if i = 1 then some "py" else none

/-- Embeds `PoissonQuad::strainName`: identical table to `stressName`. -/
def strainName (i : ℤ) : Option String :=
  if i = 0 then some "px" else if i = 1 then some "py" else none

/-- Embeds `PoissonQuad::extraName`: always `NULL`. -/
def extraName (_ : ℤ) : Option String :=
  none

/-- Flat offset of the first entry of row `i` in the packed upper-triangular
6x6 beam stiffness array `C[21]`: rows start at 0, 6, 11, 15, 18, 20, as
documented by the row comments in the beam constructor. -/
def rowStart (i : ℕ) : ℕ :=
  i * 6 - i * (i - 1) / 2

/-- The symmetric 6x6 stiffness operator encoded by the packed array `C`:
entry `(i, j)` is stored at `rowStart i + (j - i)` for `i ≤ j` and obtained
by symmetry otherwise. -/
def symBeamC {F : Type} [Field F] (C : ℕ → F) (i j : ℕ) : F :=
  if i ≤ j then C (rowStart i + (j - i)) else C (rowStart j + (i - j))

/-- Embeds `TACSBeamConstitutive::evalStress`, which calls `computeStress(C, e, s)`.
Modelled from the spec: `computeStress` is declared in the missing header;
the spec (§4.5) describes it as the linear operator `s = C·e` with `C` the
symmetric 6x6 operator packed in the 21-entry array. -/
def evalStress {F : Type} [Field F] (C e : ℕ → F) (i : ℕ) : F :=
  ∑ j in Finset.range 6, symBeamC C i j * e j

/-- Embeds `TACSBeamConstitutive::evalTangentStiffness`: `memcpy` of the 21 packed
entries of the stored `C` into the caller buffer `C0`, which keeps its own
contents beyond index 20. -/
def evalTangentStiffness {F : Type} [Field F] (C C0 : ℕ → F) : ℕ → F :=
  fun idx => if idx < 21 then C idx else C0 idx

/-- Squared Euclidean norm of a triple, written as in the C code
`a[0]*a[0] + a[1]*a[1] + a[2]*a[2]`. -/
def normSq3 (v : ℝ × ℝ × ℝ) : ℝ :=
  v.1 * v.1 + v.2.1 * v.2.1 + v.2.2 * v.2.2

/-- The axis-normalization performed by every `TACSBeamConstitutive`
constructor and by `setProperties` when the axis pointer is non-null:
`tmp = 1.0/sqrt(a·a)` then `axis[k] *= tmp`.  The stored axis (returned
unchanged by `getProperties`) is this value. -/
noncomputable def normalizeAxis (a0 a1 a2 : ℝ) : ℝ × ℝ × ℝ :=
  let tmp := 1 / Real.sqrt (a0 * a0 + a1 * a1 + a2 * a2)
  (a0 * tmp, a1 * tmp, a2 * tmp)

/-- Embeds `TACSBeamConstitutive::getProperties`: copies the stored (already
normalized) axis out to the caller. -/
def getPropertiesAxis (axis : ℝ × ℝ × ℝ) : ℝ × ℝ × ℝ :=
  axis

/-- The knot locations set by the `PoissonQuad` constructor: `{-1, 1}` for
order 2, `{-1, 0, 1}` for order 3, and the cosine spacing
`-cos(pi*k/(order-1))` otherwise.  Entries past `order-1` are never read. -/
noncomputable def poissonKnots (order : ℕ) : ℕ → ℝ :=
  if order = 2 then fun k => if k = 0 then -1 else if k = 1 then 1 else 0
  else if order = 3 then
    fun k => if k = 0 then -1 else if k = 1 then 0 else if k = 2 then 1 else 0
  else fun k => -Real.cos (Real.pi * k / ((order : ℝ) - 1))

/-- The two-point Gauss-Legendre abscissae.
Modelled from the spec: `FElibrary::getGaussPtsWts` is not part of the
excerpt; the spec (§4.1) names Gauss-Legendre integration, whose 2-point rule
has points `±1/√3 = ±√3/3`. -/
noncomputable def gaussPts2 : ℕ → ℝ :=
  fun n => if n = 0 then -(Real.sqrt 3 / 3) else if n = 1 then Real.sqrt 3 / 3 else 0

/-- The two-point Gauss-Legendre weights, both 1.
Modelled from the spec, as for `gaussPts2`. -/
def gaussWts2 : ℕ → ℝ :=
  fun n => if n < 2 then 1 else 0

/-- Node coordinates of the unit square for an order-2 element: nodes
`(0,0,0), (1,0,0), (0,1,0), (1,1,0)` flattened with stride 3. -/
def unitSquareXpts : ℕ → ℝ :=
  fun k => if k = 3 then 1 else if k = 7 then 1 else if k = 9 then 1
    else if k = 10 then 1 else 0

/-! ### Helper lemmas about the accumulation loops -/

/-- Folding an additive buffer update over `List.range k` accumulates the sum
of the per-iteration increments. -/
theorem foldl_addInto {F : Type} [Field F] (g : ℕ → ℕ → F) :
    ∀ (k : ℕ) (buf : ℕ → F),
      (List.range k).foldl (fun b m => addInto (g m) b) buf =
        addInto (fun i => ∑ m in Finset.range k, g m i) buf := by
  intro k
  induction k with
  | zero => intro buf; funext i; simp [addInto]
  | succ k ih =>
    intro buf
    rw [List.range_succ, List.foldl_append]
    simp only [List.foldl_cons, List.foldl_nil, ih]
    funext i
    simp [addInto, Finset.sum_range_succ]
    ring

/-- Two nested additive-update loops accumulate the double sum. -/
theorem foldl_foldl_addInto {F : Type} [Field F] (g : ℕ → ℕ → ℕ → F) (k l : ℕ)
    (buf : ℕ → F) :
    (List.range k).foldl (fun b m =>
        (List.range l).foldl (fun b2 n => addInto (g m n) b2) b) buf =
      addInto (fun i => ∑ m in Finset.range k, ∑ n in Finset.range l, g m n i) buf := by
  have h : (fun (b : ℕ → F) (m : ℕ) =>
      (List.range l).foldl (fun b2 n => addInto (g m n) b2) b) =
      fun b m => addInto (fun i => ∑ n in Finset.range l, g m n i) b := by
    funext b m
    exact foldl_addInto _ l b
  rw [h]
  exact foldl_addInto _ k buf

/-- A loop `for i < k: buf[i] += g i` of single-entry accumulations is the
guarded pointwise update. -/
theorem foldl_addAt_range {F : Type} [Field F] (g : ℕ → F) (k : ℕ) (buf : ℕ → F) :
    (List.range k).foldl (fun b i => addAt i (g i) b) buf =
      addInto (fun idx => if idx < k then g idx else 0) buf := by
  have h : (fun (b : ℕ → F) (i : ℕ) => addAt i (g i) b) =
      fun b i => addInto (fun idx => if idx = i then g i else 0) b := rfl
  rw [h, foldl_addInto]
  funext idx
  simp only [addInto]
  rw [Finset.sum_ite_eq (Finset.range k) idx g]
  simp [Finset.mem_range]

/-- Evaluating the indicator double sum of the flattened matrix writes
`mat[i + j*N] += c i j` (`i, j < N`): index `idx` receives the unique term
with `i = idx % N`, `j = idx / N` when `idx < N*N`, and nothing otherwise. -/
theorem sum_ite_grid {F : Type} [Field F] (N idx : ℕ) (c : ℕ → ℕ → F) :
    (∑ j in Finset.range N, ∑ i in Finset.range N,
        if idx = i + j * N then c i j else 0) =
      if idx < N * N then c (idx % N) (idx / N) else 0 := by
  by_cases h : idx < N * N
  · have hN : 0 < N := by
      rcases Nat.eq_zero_or_pos N with h0 | h0
      · subst h0; simp at h
      · exact h0
    have hj : idx / N < N := (Nat.div_lt_iff_lt_mul hN).mpr h
    have hi : idx % N < N := Nat.mod_lt _ hN
    rw [if_pos h]
    rw [Finset.sum_eq_single (idx / N)]
    · rw [Finset.sum_eq_single (idx % N)]
      · rw [if_pos]
        exact (Nat.mod_add_div' idx N).symm
      · intro i hmem hne
        rw [if_neg]
        intro heq
        have h1 : idx % N = i := by
          rw [heq, Nat.add_mul_mod_self_right,
            Nat.mod_eq_of_lt (Finset.mem_range.mp hmem)]
        exact hne h1.symm
      · intro hmem
        exact absurd (Finset.mem_range.mpr hi) hmem
    · intro j hmem hne
      apply Finset.sum_eq_zero
      intro i hmem2
      rw [if_neg]
      intro heq
      have h1 : idx / N = j := by
        rw [heq, Nat.add_mul_div_right _ _ hN,
          Nat.div_eq_of_lt (Finset.mem_range.mp hmem2), Nat.zero_add]
      exact hne h1.symm
    · intro hmem
      exact absurd (Finset.mem_range.mpr hj) hmem
  · rw [if_neg h]
    apply Finset.sum_eq_zero
    intro j hj
    apply Finset.sum_eq_zero
    intro i hi
    rw [if_neg]
    intro heq
    apply h
    have hiN := Finset.mem_range.mp hi
    have hjN := Finset.mem_range.mp hj
    have hmul : (j + 1) * N ≤ N * N := by
      rw [Nat.mul_comm N N]
      exact Nat.mul_le_mul_right N (Nat.succ_le_of_lt hjN)
    have hexp : (j + 1) * N = j * N + N := by ring
    omega

/-- Closed form of `addResidual`: it adds `resTotal` pointwise. -/
theorem addResidual_eq {F : Type} [Field F] (order : ℕ) (pts wts knots f : ℕ → F)
    (time : F) (Xpts vars dvars ddvars : ℕ → F) (res : ℕ → F) :
    addResidual order pts wts knots f time Xpts vars dvars ddvars res =
      addInto (resTotal order pts wts knots f Xpts vars) res := by
  unfold addResidual
  have h1 : (fun (r : ℕ → F) (m : ℕ) =>
      (List.range order).foldl (fun r2 n =>
        (List.range (order * order)).foldl (fun r3 i =>
          addAt i (resContrib order pts wts knots f Xpts vars m n i) r3) r2) r) =
      fun r m => (List.range order).foldl (fun r2 n =>
        addInto (fun idx => if idx < order * order then
          resContrib order pts wts knots f Xpts vars m n idx else 0) r2) r := by
    funext r m
    congr 1
    funext r2 n
    exact foldl_addAt_range _ _ r2
  rw [h1, foldl_foldl_addInto]
  funext i
  simp only [addInto, resTotal]
  by_cases h : i < order * order
  · simp [h]
  · simp [h]

/-- Closed form of `addJacobian`: entry `i + j*order²` (for `i, j < order²`)
receives `jacTotal i j`; all other entries are untouched. -/
theorem addJacobian_eq {F : Type} [Field F] (order : ℕ) (pts wts knots : ℕ → F)
    (time alpha beta gamma : F) (Xpts vars dvars ddvars : ℕ → F) (mat : ℕ → F) :
    addJacobian order pts wts knots time alpha beta gamma Xpts vars dvars ddvars mat =
      addInto (fun idx => if idx < (order * order) * (order * order) then
        jacTotal order pts wts knots Xpts alpha (idx % (order * order))
          (idx / (order * order)) else 0) mat := by
  unfold addJacobian
  have h1 : (fun (r : ℕ → F) (m : ℕ) =>
      (List.range order).foldl (fun r2 n =>
        (List.range (order * order)).foldl (fun r3 j =>
          (List.range (order * order)).foldl (fun r4 i =>
            addAt (i + j * (order * order))
              (jacContrib order pts wts knots Xpts alpha m n i j) r4) r3) r2) r) =
      fun r m => (List.range order).foldl (fun r2 n =>
        addInto (fun idx => if idx < (order * order) * (order * order) then
          jacContrib order pts wts knots Xpts alpha m n (idx % (order * order))
            (idx / (order * order)) else 0) r2) r := by
    funext r m
    congr 1
    funext r2 n
    have h2 := foldl_foldl_addInto
      (fun j i idx => if idx = i + j * (order * order) then
        jacContrib order pts wts knots Xpts alpha m n i j else 0)
      (order * order) (order * order) r2
    rw [show (fun (r3 : ℕ → F) (j : ℕ) =>
        (List.range (order * order)).foldl (fun r4 i =>
          addAt (i + j * (order * order))
            (jacContrib order pts wts knots Xpts alpha m n i j) r4) r3) =
      fun r3 j => (List.range (order * order)).foldl (fun r4 i =>
        addInto (fun idx => if idx = i + j * (order * order) then
          jacContrib order pts wts knots Xpts alpha m n i j else 0) r4) r3 from rfl]
    rw [h2]
    funext idx
    simp only [addInto]
    rw [sum_ite_grid (order * order) idx
      (fun i j => jacContrib order pts wts knots Xpts alpha m n i j)]
  rw [h1, foldl_foldl_addInto]
  funext idx
  simp only [addInto, jacTotal]
  by_cases h : idx < (order * order) * (order * order)
  · simp [h]
  · simp [h]

/-- Closed form of `addLocalizedError`: entry `idx` accumulates, over all
quadrature points, the corner shares whose target index equals `idx`. -/
theorem addLocalizedError_eq {F : Type} [Field F] (order : ℕ) (pts wts knots f : ℕ → F)
    (time : F) (adjoint Xpts vars : ℕ → F) (err : ℕ → F) :
    addLocalizedError order pts wts knots f time adjoint Xpts vars err =
      addInto (fun idx => ∑ m in Finset.range order, ∑ n in Finset.range order,
        ((if idx = cornerIdx order 0 then
            nerrWeight (pts n) (pts m) 0 *
              errProduct order pts wts knots f Xpts vars adjoint m n else 0) +
         (if idx = cornerIdx order 1 then
            nerrWeight (pts n) (pts m) 1 *
              errProduct order pts wts knots f Xpts vars adjoint m n else 0) +
         (if idx = cornerIdx order 2 then
            nerrWeight (pts n) (pts m) 2 *
              errProduct order pts wts knots f Xpts vars adjoint m n else 0) +
         (if idx = cornerIdx order 3 then
            nerrWeight (pts n) (pts m) 3 *
              errProduct order pts wts knots f Xpts vars adjoint m n else 0))) err := by
  unfold addLocalizedError
  have h1 : (fun (r : ℕ → F) (m : ℕ) =>
      (List.range order).foldl (fun r2 n =>
        let product := errProduct order pts wts knots f Xpts vars adjoint m n
        addAt (cornerIdx order 3) (nerrWeight (pts n) (pts m) 3 * product)
          (addAt (cornerIdx order 2) (nerrWeight (pts n) (pts m) 2 * product)
            (addAt (cornerIdx order 1) (nerrWeight (pts n) (pts m) 1 * product)
              (addAt (cornerIdx order 0) (nerrWeight (pts n) (pts m) 0 * product) r2)))) r) =
      fun r m => (List.range order).foldl (fun r2 n =>
        addInto (fun idx =>
          (if idx = cornerIdx order 0 then
            nerrWeight (pts n) (pts m) 0 *
              errProduct order pts wts knots f Xpts vars adjoint m n else 0) +
          (if idx = cornerIdx order 1 then
            nerrWeight (pts n) (pts m) 1 *
              errProduct order pts wts knots f Xpts vars adjoint m n else 0) +
          (if idx = cornerIdx order 2 then
            nerrWeight (pts n) (pts m) 2 *
              errProduct order pts wts knots f Xpts vars adjoint m n else 0) +
          (if idx = cornerIdx order 3 then
            nerrWeight (pts n) (pts m) 3 *
              errProduct order pts wts knots f Xpts vars adjoint m n else 0)) r2) r := by
    funext r m
    congr 1
    funext r2 n
    funext idx
    simp only [addAt, addInto]
    ring
  rw [h1]
  exact foldl_foldl_addInto _ order order err

/-- Closed form of the connectivity loop: after processing sub-quads
`0 .. K-1`, entry `idx < 4*K` holds `quadVal (idx/4) (idx%4)` and every other
entry is untouched.  Each `quadWrite p` writes only `con[4p .. 4p+3]`, so
later sub-quads never overwrite earlier ones. -/
theorem foldl_quadWrite (order : ℕ) (node : ℤ) :
    ∀ (K : ℕ) (con : ℕ → ℤ) (idx : ℕ),
      (List.range K).foldl (fun c p => quadWrite order node p c) con idx =
        if idx < 4 * K then quadVal order node (idx / 4) (idx % 4) else con idx := by
  intro K
  induction K with
  | zero => intro con idx; simp
  | succ K ih =>
    intro con idx
    rw [List.range_succ, List.foldl_append, List.foldl_cons, List.foldl_nil]
    by_cases h : idx < 4 * K
    · have huntouched : quadWrite order node K
          ((List.range K).foldl (fun c p => quadWrite order node p c) con) idx =
          (List.range K).foldl (fun c p => quadWrite order node p c) con idx := by
        simp only [quadWrite, writeAt]
        rw [if_neg (by omega), if_neg (by omega), if_neg (by omega), if_neg (by omega)]
      rw [huntouched, ih, if_pos h, if_pos (by omega)]
    · by_cases h2 : idx < 4 * (K + 1)
      · rw [if_pos h2]
        have hdiv : idx / 4 = K := by omega
        have hc : idx % 4 = idx - 4 * K := by omega
        have hcase : idx = 4 * K ∨ idx = 4 * K + 1 ∨ idx = 4 * K + 2 ∨ idx = 4 * K + 3 := by
          omega
        rcases hcase with hc0 | hc1 | hc2 | hc3
        · subst hc0
          have e1 : 4 * K / 4 = K := by omega
          have e2 : 4 * K % 4 = 0 := by omega
          simp [quadWrite, writeAt, quadVal, e1, e2]
        · subst hc1
          have e1 : (4 * K + 1) / 4 = K := by omega
          have e2 : (4 * K + 1) % 4 = 1 := by omega
          simp [quadWrite, writeAt, quadVal, e1, e2]
        · subst hc2
          have e1 : (4 * K + 2) / 4 = K := by omega
          have e2 : (4 * K + 2) % 4 = 2 := by omega
          simp [quadWrite, writeAt, quadVal, e1, e2]
        · subst hc3
          have e1 : (4 * K + 3) / 4 = K := by omega
          have e2 : (4 * K + 3) % 4 = 3 := by omega
          simp [quadWrite, writeAt, quadVal, e1, e2]
      · have huntouched : quadWrite order node K
            ((List.range K).foldl (fun c p => quadWrite order node p c) con) idx =
            (List.range K).foldl (fun c p => quadWrite order node p c) con idx := by
          simp only [quadWrite, writeAt]
          rw [if_neg (by omega), if_neg (by omega), if_neg (by omega), if_neg (by omega)]
        rw [huntouched, ih, if_neg (by omega), if_neg h2]

/-! ### Lagrange basis: partition of unity -/

/-- The array-style Lagrange shape function is the evaluation of the Lagrange
basis polynomial over the index set `Finset.range n`. -/
theorem lagrangeSF_eq_eval {F : Type} [Field F] (n : ℕ) (k : ℕ → F) (x : F) (i : ℕ) :
    lagrangeSF n k x i = Polynomial.eval x (Lagrange.basis (Finset.range n) k i) := by
  unfold lagrangeSF Lagrange.basis
  rw [Polynomial.eval_prod]
  apply Finset.prod_congr rfl
  intro j hj
  simp only [Lagrange.basisDivisor, Polynomial.eval_mul, Polynomial.eval_C,
    Polynomial.eval_sub, Polynomial.eval_X]
  rw [div_eq_mul_inv, mul_comm]

/-- Partition of unity for the 1D Lagrange basis over distinct knots. -/
theorem sum_lagrangeSF {F : Type} [Field F] (n : ℕ) (hn : 0 < n) (k : ℕ → F)
    (hk : Set.InjOn k ↑(Finset.range n)) (x : F) :
    ∑ i in Finset.range n, lagrangeSF n k x i = 1 := by
  have h : ∀ i ∈ Finset.range n, lagrangeSF n k x i =
      Polynomial.eval x (Lagrange.basis (Finset.range n) k i) :=
    fun i _ => lagrangeSF_eq_eval n k x i
  rw [Finset.sum_congr rfl h, ← Polynomial.eval_finset_sum,
    Lagrange.sum_basis hk ⟨0, Finset.mem_range.mpr hn⟩, Polynomial.eval_one]

/-- Sub-quad / node-grid bound: `i + j*n < n*n` for `i, j < n`. -/
theorem grid_lt {i j n : ℕ} (hi : i < n) (hj : j < n) : i + j * n < n * n := by
  calc i + j * n < n + j * n := by omega
    _ = (j + 1) * n := by ring
    _ ≤ n * n := Nat.mul_le_mul_right n (Nat.succ_le_of_lt hj)

/-- A sum over the flattened `n × n` node grid splits into the double sum
over xi-index `p % n` and eta-index `p / n`. -/
theorem sum_range_sq {M : Type} [AddCommMonoid M] (n : ℕ) (h : ℕ → ℕ → M) :
    ∑ p in Finset.range (n * n), h (p % n) (p / n) =
      ∑ j in Finset.range n, ∑ i in Finset.range n, h i j := by
  rcases Nat.eq_zero_or_pos n with h0 | h0
  · subst h0; simp
  calc ∑ p in Finset.range (n * n), h (p % n) (p / n)
      = ∑ q in Finset.range n ×ˢ Finset.range n, h q.2 q.1 := by
        apply Finset.sum_nbij' (fun p => (p / n, p % n)) (fun q => q.2 + q.1 * n)
        · intro p hp
          rw [Finset.mem_product]
          refine ⟨Finset.mem_range.mpr ?_, Finset.mem_range.mpr (Nat.mod_lt _ h0)⟩
          exact (Nat.div_lt_iff_lt_mul h0).mpr (Finset.mem_range.mp hp)
        · intro q hq
          rw [Finset.mem_product] at hq
          exact Finset.mem_range.mpr
            (grid_lt (Finset.mem_range.mp hq.2) (Finset.mem_range.mp hq.1))
        · intro p hp
          exact Nat.mod_add_div' p n
        · intro q hq
          rw [Finset.mem_product] at hq
          have h1 : (q.2 + q.1 * n) / n = q.1 := by
            rw [Nat.add_mul_div_right _ _ h0,
              Nat.div_eq_of_lt (Finset.mem_range.mp hq.2), Nat.zero_add]
          have h2 : (q.2 + q.1 * n) % n = q.2 := by
            rw [Nat.add_mul_mod_self_right,
              Nat.mod_eq_of_lt (Finset.mem_range.mp hq.2)]
          rw [h1, h2]
        · intro p hp
          rfl
    _ = ∑ j in Finset.range n, ∑ i in Finset.range n, h i j := by
        rw [Finset.sum_product]

/-- The knots set by the constructor are pairwise distinct for every valid
order: explicitly for orders 2 and 3, and via strict monotonicity of the
cosine spacing otherwise. -/
theorem poissonKnots_injOn (order : ℕ) (h : 2 ≤ order) :
    Set.InjOn (poissonKnots order) ↑(Finset.range order) := by
  intro a ha b hb hab
  rw [Finset.coe_range, Set.mem_Iio] at ha hb
  by_cases h2 : order = 2
  · subst h2
    simp only [poissonKnots, if_pos rfl] at hab
    interval_cases a <;> interval_cases b <;> simp_all <;> norm_num at hab
  by_cases h3 : order = 3
  · subst h3
    simp only [poissonKnots, h2, if_false, if_pos rfl] at hab
    interval_cases a <;> interval_cases b <;> simp_all <;> norm_num at hab
  -- cosine-spaced knots: order ≥ 4 here (but only 2 ≤ order is needed)
  have h4 : 3 ≤ order := by omega
  have hden : (0 : ℝ) < (order : ℝ) - 1 := by
    have : (3 : ℝ) ≤ (order : ℝ) := by exact_mod_cast h4
    linarith
  simp only [poissonKnots, h2, h3, if_false, neg_inj] at hab
  have hmem : ∀ c : ℕ, c < order → Real.pi * c / ((order : ℝ) - 1) ∈ Set.Icc 0 Real.pi := by
    intro c hc
    constructor
    · positivity
    · rw [div_le_iff₀ hden]
      have hc' : (c : ℝ) ≤ (order : ℝ) - 1 := by
        have : (c : ℝ) + 1 ≤ (order : ℝ) := by exact_mod_cast hc
        linarith
      nlinarith [Real.pi_pos]
  have heq := Real.injOn_cos (hmem a ha) (hmem b hb) hab
  field_simp at heq
  rcases heq with heq | heq
  · exact heq
  · exact absurd heq Real.pi_ne_zero

/-- The per-point Jacobian contribution is symmetric under swapping the two
node indices. -/
theorem jacContrib_symm {F : Type} [Field F] (order : ℕ) (pts wts knots Xpts : ℕ → F)
    (alpha : F) (m n i j : ℕ) :
    jacContrib order pts wts knots Xpts alpha m n i j =
      jacContrib order pts wts knots Xpts alpha m n j i := by
  simp only [jacContrib]
  ring

/-! ### Claim theorems for the PoissonQuad kernel -/

/-- C1: `addResidual` is pure accumulation: the final `res` equals the
initial `res` plus a contribution `resTotal` that depends only on
`(pts, wts, knots, f, Xpts, vars)` — in particular not on `time`, `dvars`,
`ddvars` or the incoming buffer — and calling it twice with the same inputs
on a zero-initialized buffer yields exactly double the single-call result. -/
theorem addResidual_pure_accumulation (order : ℕ) (pts wts knots f : ℕ → ℝ)
    (time time2 : ℝ) (Xpts vars dvars ddvars dvars2 ddvars2 : ℕ → ℝ) (res : ℕ → ℝ) :
    (addResidual order pts wts knots f time Xpts vars dvars ddvars res =
      fun i => res i + resTotal order pts wts knots f Xpts vars i) ∧
    (addResidual order pts wts knots f time2 Xpts vars dvars2 ddvars2
        (addResidual order pts wts knots f time Xpts vars dvars ddvars (fun _ => 0)) =
      fun i => 2 * addResidual order pts wts knots f time Xpts vars dvars ddvars
        (fun _ => 0) i) := by
  constructor
  · rw [addResidual_eq]
    rfl
  · rw [addResidual_eq,
      addResidual_eq order pts wts knots f time Xpts vars dvars ddvars (fun _ => 0)]
    funext i
    simp only [addInto]
    ring

/-- C2: the increment that `addJacobian` adds to `mat[i + j*order²]` equals
the increment added to `mat[j + i*order²]`, for all node indices
`i, j < order²`: the accumulated tangent stiffness matrix is symmetric. -/
theorem addJacobian_symmetric (order : ℕ) (pts wts knots : ℕ → ℝ)
    (time alpha beta gamma : ℝ) (Xpts vars dvars ddvars mat : ℕ → ℝ) (i j : ℕ)
    (hi : i < order * order) (hj : j < order * order) :
    addJacobian order pts wts knots time alpha beta gamma Xpts vars dvars ddvars mat
        (i + j * (order * order)) - mat (i + j * (order * order)) =
      addJacobian order pts wts knots time alpha beta gamma Xpts vars dvars ddvars mat
        (j + i * (order * order)) - mat (j + i * (order * order)) := by
  rw [addJacobian_eq]
  simp only [addInto, add_sub_cancel_left]
  have hN : 0 < order * order := by omega
  have d1 : (i + j * (order * order)) % (order * order) = i := by
    rw [Nat.add_mul_mod_self_right, Nat.mod_eq_of_lt hi]
  have d2 : (i + j * (order * order)) / (order * order) = j := by
    rw [Nat.add_mul_div_right _ _ hN, Nat.div_eq_of_lt hi, Nat.zero_add]
  have d3 : (j + i * (order * order)) % (order * order) = j := by
    rw [Nat.add_mul_mod_self_right, Nat.mod_eq_of_lt hj]
  have d4 : (j + i * (order * order)) / (order * order) = i := by
    rw [Nat.add_mul_div_right _ _ hN, Nat.div_eq_of_lt hj, Nat.zero_add]
  rw [if_pos (grid_lt hi hj), if_pos (grid_lt hj hi), d1, d2, d3, d4]
  unfold jacTotal
  apply Finset.sum_congr rfl
  intro m _
  apply Finset.sum_congr rfl
  intro n _
  exact jacContrib_symm order pts wts knots Xpts alpha m n i j

/-- Witness for C2 at order 2, entry (0, 1). -/
theorem addJacobian_symmetric_witness :
    addJacobian 2 (fun _ => (0 : ℝ)) (fun _ => 0) (fun _ => 0) 0 1 0 0
        (fun _ => 0) (fun _ => 0) (fun _ => 0) (fun _ => 0) (fun _ => 0)
        (0 + 1 * (2 * 2)) - (fun _ => (0 : ℝ)) (0 + 1 * (2 * 2)) =
      addJacobian 2 (fun _ => (0 : ℝ)) (fun _ => 0) (fun _ => 0) 0 1 0 0
        (fun _ => 0) (fun _ => 0) (fun _ => 0) (fun _ => 0) (fun _ => 0)
        (1 + 0 * (2 * 2)) - (fun _ => (0 : ℝ)) (1 + 0 * (2 * 2)) :=
  addJacobian_symmetric 2 (fun _ => 0) (fun _ => 0) (fun _ => 0) 0 1 0 0
    (fun _ => 0) (fun _ => 0) (fun _ => 0) (fun _ => 0) (fun _ => 0) 0 1
    (by norm_num) (by norm_num)

/-- C7: the increment `addJacobian` adds to `mat` vanishes for `alpha = 0`,
scales linearly in `alpha`, and the result does not depend on `beta` or
`gamma` at all. -/
theorem addJacobian_alpha_scaling (order : ℕ) (pts wts knots : ℕ → ℝ)
    (time alpha beta gamma beta2 gamma2 : ℝ) (Xpts vars dvars ddvars mat : ℕ → ℝ) :
    (addJacobian order pts wts knots time 0 beta gamma Xpts vars dvars ddvars mat = mat) ∧
    (∀ idx, addJacobian order pts wts knots time alpha beta gamma Xpts vars dvars ddvars
        mat idx - mat idx =
      alpha * (addJacobian order pts wts knots time 1 beta gamma Xpts vars dvars ddvars
        mat idx - mat idx)) ∧
    (addJacobian order pts wts knots time alpha beta gamma Xpts vars dvars ddvars mat =
      addJacobian order pts wts knots time alpha beta2 gamma2 Xpts vars dvars ddvars mat) := by
  refine ⟨?_, ?_, rfl⟩
  · rw [addJacobian_eq]
    funext idx
    simp only [addInto]
    have hz : jacTotal order pts wts knots Xpts 0 (idx % (order * order))
        (idx / (order * order)) = 0 := by
      unfold jacTotal
      apply Finset.sum_eq_zero
      intro m _
      apply Finset.sum_eq_zero
      intro n _
      simp only [jacContrib]
      ring
    by_cases h : idx < (order * order) * (order * order)
    · rw [if_pos h, hz, add_zero]
    · rw [if_neg h, add_zero]
  · intro idx
    rw [addJacobian_eq, addJacobian_eq]
    simp only [addInto, add_sub_cancel_left]
    have hlin : jacTotal order pts wts knots Xpts alpha (idx % (order * order))
        (idx / (order * order)) =
        alpha * jacTotal order pts wts knots Xpts 1 (idx % (order * order))
          (idx / (order * order)) := by
      unfold jacTotal
      rw [Finset.mul_sum]
      apply Finset.sum_congr rfl
      intro m _
      rw [Finset.mul_sum]
      apply Finset.sum_congr rfl
      intro n _
      simp only [jacContrib]
      ring
    by_cases h : idx < (order * order) * (order * order)
    · rw [if_pos h, if_pos h, hlin]
    · rw [if_neg h, if_neg h, mul_zero]

/-- The tensor-product shape functions on the constructor knots sum to 1
at every parametric point. -/
theorem shapeN_sum_one (order : ℕ) (h : 2 ≤ order) (x y : ℝ) :
    ∑ p in Finset.range (order * order), shapeN order (poissonKnots order) x y p = 1 := by
  unfold shapeN
  rw [sum_range_sq order (fun i j => lagrangeSF order (poissonKnots order) x i *
    lagrangeSF order (poissonKnots order) y j)]
  have h1 : (0 : ℕ) < order := by omega
  have hk := poissonKnots_injOn order h
  calc ∑ j in Finset.range order, ∑ i in Finset.range order,
        lagrangeSF order (poissonKnots order) x i *
          lagrangeSF order (poissonKnots order) y j
      = ∑ j in Finset.range order, lagrangeSF order (poissonKnots order) y j := by
        apply Finset.sum_congr rfl
        intro j _
        rw [← Finset.sum_mul, sum_lagrangeSF order h1 _ hk x, one_mul]
    _ = 1 := sum_lagrangeSF order h1 _ hk y

/-- C3: the shape functions built on the constructor knots sum to 1 at
every parametric point, for every element order. -/
theorem shapeN_partition_of_unity (order : ℕ) (h : 2 ≤ order) (x y : ℝ) :
    ∑ p in Finset.range (order * order), shapeN order (poissonKnots order) x y p = 1 :=
  shapeN_sum_one order h x y

/-- Witness for C3 at order 2 and the parametric point (1/2, 1/3). -/
theorem shapeN_partition_of_unity_witness :
    (2 ≤ 2) ∧
      ∑ p in Finset.range (2 * 2), shapeN 2 (poissonKnots 2) (1/2 : ℝ) (1/3) p = 1 :=
  ⟨by norm_num, shapeN_partition_of_unity 2 (by norm_num) (1/2) (1/3)⟩

/-- C6: `addLocalizedError` touches only the four corner entries
`0, order-1, order*(order-1), order*order-1` of `err`, and the four bilinear
corner weights sum to 1 at every parametric point. -/
theorem addLocalizedError_corner_frame (order : ℕ) (pts wts knots f : ℕ → ℝ)
    (time : ℝ) (adjoint Xpts vars err : ℕ → ℝ) :
    (∀ idx, idx ≠ 0 → idx ≠ order - 1 → idx ≠ order * (order - 1) →
      idx ≠ order * order - 1 →
      addLocalizedError order pts wts knots f time adjoint Xpts vars err idx = err idx) ∧
    (∀ x y : ℝ, nerrWeight x y 0 + nerrWeight x y 1 + nerrWeight x y 2 +
      nerrWeight x y 3 = 1) := by
  constructor
  · intro idx h0 h1 h2 h3
    rw [addLocalizedError_eq]
    simp only [addInto]
    have hz : (∑ m in Finset.range order, ∑ n in Finset.range order,
        ((if idx = cornerIdx order 0 then
            nerrWeight (pts n) (pts m) 0 *
              errProduct order pts wts knots f Xpts vars adjoint m n else 0) +
         (if idx = cornerIdx order 1 then
            nerrWeight (pts n) (pts m) 1 *
              errProduct order pts wts knots f Xpts vars adjoint m n else 0) +
         (if idx = cornerIdx order 2 then
            nerrWeight (pts n) (pts m) 2 *
              errProduct order pts wts knots f Xpts vars adjoint m n else 0) +
         (if idx = cornerIdx order 3 then
            nerrWeight (pts n) (pts m) 3 *
              errProduct order pts wts knots f Xpts vars adjoint m n else 0))) = 0 := by
      apply Finset.sum_eq_zero
      intro m _
      apply Finset.sum_eq_zero
      intro n _
      simp only [cornerIdx]
      rw [if_neg h0, if_neg h1, if_neg h2, if_neg h3]
      norm_num
    rw [hz, add_zero]
  · intro x y
    simp only [nerrWeight]
    ring

/-- Witness for C6 at order 3, untouched entry 5, and point (1/2, 1/3). -/
theorem addLocalizedError_corner_frame_witness :
    addLocalizedError 3 (fun _ => (0 : ℝ)) (fun _ => 0) (fun _ => 0) (fun _ => 0) 0
        (fun _ => 0) (fun _ => 0) (fun _ => 0) (fun _ => 0) 5 = 0 ∧
      nerrWeight (1/2 : ℝ) (1/3) 0 + nerrWeight (1/2 : ℝ) (1/3) 1 +
        nerrWeight (1/2 : ℝ) (1/3) 2 + nerrWeight (1/2 : ℝ) (1/3) 3 = 1 :=
  ⟨(addLocalizedError_corner_frame 3 (fun _ => 0) (fun _ => 0) (fun _ => 0)
      (fun _ => 0) 0 (fun _ => 0) (fun _ => 0) (fun _ => 0) (fun _ => 0)).1 5
      (by norm_num) (by norm_num) (by norm_num) (by norm_num),
   (addLocalizedError_corner_frame 3 (fun _ => 0) (fun _ => 0) (fun _ => 0)
      (fun _ => 0) 0 (fun _ => 0) (fun _ => 0) (fun _ => 0) (fun _ => 0)).2
      (1/2) (1/3)⟩

/-- Entry `4p + c` after the connectivity loop over `K` sub-quads holds the
corner value of sub-quad `p`, whenever `p < K` and `c < 4`. -/
theorem quadWrite_loop_entry (order : ℕ) (node : ℤ) (con : ℕ → ℤ) (K p c : ℕ)
    (hp : p < K) (hc : c < 4) :
    (List.range K).foldl (fun cc q => quadWrite order node q cc) con (4 * p + c) =
      quadVal order node p c := by
  rw [foldl_quadWrite]
  have e1 : (4 * p + c) / 4 = p := by omega
  have e2 : (4 * p + c) % 4 = c := by omega
  rw [if_pos (by omega), e1, e2]

/-- Entries at or beyond `4K` are untouched by the connectivity loop. -/
theorem quadWrite_loop_frame (order : ℕ) (node : ℤ) (con : ℕ → ℤ) (K idx : ℕ)
    (h : 4 * K ≤ idx) :
    (List.range K).foldl (fun cc q => quadWrite order node q cc) con idx = con idx := by
  rw [foldl_quadWrite, if_neg (by omega)]

/-- C5: `getOutputConnectivity` writes, for every sub-quad `(m, n)` of the
`(order-1) × (order-1)` decomposition, the four grid indices
`node + n + m*order`, `node + n+1 + m*order`, `node + n+1 + (m+1)*order`,
`node + n + (m+1)*order` into `con[4p .. 4p+3]` (`p = n + m*(order-1)`), and
leaves every entry at index `≥ 4*(order-1)²` unchanged. -/
theorem getOutputConnectivity_quads (order : ℕ) (node : ℤ) (con : ℕ → ℤ) (m n : ℕ)
    (hm : m < order - 1) (hn : n < order - 1) :
    (getOutputConnectivity order node con (4 * (n + m * (order - 1))) =
        node + n + m * order ∧
      getOutputConnectivity order node con (4 * (n + m * (order - 1)) + 1) =
        node + (n + 1) + m * order ∧
      getOutputConnectivity order node con (4 * (n + m * (order - 1)) + 2) =
        node + (n + 1) + (m + 1) * order ∧
      getOutputConnectivity order node con (4 * (n + m * (order - 1)) + 3) =
        node + n + (m + 1) * order) ∧
    (∀ idx, 4 * ((order - 1) * (order - 1)) ≤ idx →
      getOutputConnectivity order node con idx = con idx) := by
  have hp : n + m * (order - 1) < (order - 1) * (order - 1) := grid_lt hn hm
  have hd : 0 < order - 1 := by omega
  have hmod : (n + m * (order - 1)) % (order - 1) = n := by
    rw [Nat.add_mul_mod_self_right, Nat.mod_eq_of_lt hn]
  have hdiv : (n + m * (order - 1)) / (order - 1) = m := by
    rw [Nat.add_mul_div_right _ _ hd, Nat.div_eq_of_lt hn, Nat.zero_add]
  refine ⟨⟨?_, ?_, ?_, ?_⟩, fun idx hidx => quadWrite_loop_frame order node con _ idx hidx⟩
  · have h4 := quadWrite_loop_entry order node con _ _ 0 hp (by norm_num)
    rw [Nat.add_zero] at h4
    rw [getOutputConnectivity, h4]
    simp [quadVal, hmod, hdiv]
  · have h4 := quadWrite_loop_entry order node con _ _ 1 hp (by norm_num)
    rw [getOutputConnectivity, h4]
    simp [quadVal, hmod, hdiv]
  · have h4 := quadWrite_loop_entry order node con _ _ 2 hp (by norm_num)
    rw [getOutputConnectivity, h4]
    simp [quadVal, hmod, hdiv]
  · have h4 := quadWrite_loop_entry order node con _ _ 3 hp (by norm_num)
    rw [getOutputConnectivity, h4]
    simp [quadVal, hmod, hdiv]

/-- Witness for C5 at order 3 (the 3×3 grid), sub-quad `(m, n) = (1, 0)`,
base node 10. -/
theorem getOutputConnectivity_quads_witness :
    (getOutputConnectivity 3 10 (fun _ => -1) (4 * (0 + 1 * (3 - 1))) =
        10 + (0 : ℕ) + (1 : ℕ) * 3 ∧
      getOutputConnectivity 3 10 (fun _ => -1) (4 * (0 + 1 * (3 - 1)) + 1) =
        10 + ((0 : ℕ) + 1) + (1 : ℕ) * 3 ∧
      getOutputConnectivity 3 10 (fun _ => -1) (4 * (0 + 1 * (3 - 1)) + 2) =
        10 + ((0 : ℕ) + 1) + ((1 : ℕ) + 1) * 3 ∧
      getOutputConnectivity 3 10 (fun _ => -1) (4 * (0 + 1 * (3 - 1)) + 3) =
        10 + (0 : ℕ) + ((1 : ℕ) + 1) * 3) ∧
    (∀ idx, 4 * ((3 - 1) * (3 - 1)) ≤ idx →
      getOutputConnectivity 3 10 (fun _ => -1) idx = (fun _ => (-1 : ℤ)) idx) :=
  getOutputConnectivity_quads 3 10 (fun _ => -1) 1 0 (by norm_num) (by norm_num)

/-- C9: out-of-range field-name queries return the `NULL` sentinel:
`stressName` and `strainName` return `none` for every index outside
`{0, 1}`, and `extraName` returns `none` for every index. -/
theorem fieldNames_out_of_range (i : ℤ) (h0 : i ≠ 0) (h1 : i ≠ 1) :
    stressName i = none ∧ strainName i = none ∧ ∀ j : ℤ, extraName j = none := by
  refine ⟨?_, ?_, fun j => rfl⟩
  · simp [stressName, h0, h1]
  · simp [strainName, h0, h1]

/-- Witness for C9 at index 2. -/
theorem fieldNames_out_of_range_witness :
    stressName 2 = none ∧ strainName 2 = none ∧ ∀ j : ℤ, extraName j = none :=
  fieldNames_out_of_range 2 (by norm_num) (by norm_num)

/-! ### Beam constitutive relation -/

/-- All packed indices of the upper triangle of the 6x6 operator lie inside
the 21-entry array. -/
theorem rowStart_pack_lt : ∀ i, i < 6 → ∀ j, j < 6 → i ≤ j →
    rowStart i + (j - i) < 21 := by
  decide

/-- The packed beam stiffness array encodes a symmetric operator. -/
theorem symBeamC_symm {F : Type} [Field F] (C : ℕ → F) (i j : ℕ) :
    symBeamC C i j = symBeamC C j i := by
  by_cases h1 : i ≤ j <;> by_cases h2 : j ≤ i
  · have hij : i = j := le_antisymm h1 h2
    subst hij
    rfl
  · simp [symBeamC, h1, h2]
  · simp [symBeamC, h1, h2]
  · omega

/-- Inside the 6x6 block, the operator read back from
the output of `evalTangentStiffness` agrees with the stored operator. -/
theorem symBeamC_tangent {F : Type} [Field F] (C C0 : ℕ → F) (i j : ℕ)
    (hi : i < 6) (hj : j < 6) :
    symBeamC (evalTangentStiffness C C0) i j = symBeamC C i j := by
  unfold symBeamC evalTangentStiffness
  by_cases h : i ≤ j
  · rw [if_pos h, if_pos h, if_pos (rowStart_pack_lt i hi j hj h)]
  · rw [if_neg h, if_neg h,
      if_pos (rowStart_pack_lt j hj i hi (le_of_not_le h))]

/-- C8: `evalStress` applies the symmetric operator packed in `C`: the
operator is symmetric, `evalStress` is linear in the strain, and applying
the matrix copied out by `evalTangentStiffness` to the strain reproduces
`evalStress` exactly. -/
theorem evalStress_linear_consistent (C C0 e e2 : ℕ → ℝ) (a : ℝ) (i j : ℕ)
    (hi : i < 6) (hj : j < 6) :
    (symBeamC C i j = symBeamC C j i) ∧
    (evalStress C e i = ∑ j2 in Finset.range 6,
      symBeamC (evalTangentStiffness C C0) i j2 * e j2) ∧
    (evalStress C (fun k => e k + e2 k) i = evalStress C e i + evalStress C e2 i) ∧
    (evalStress C (fun k => a * e k) i = a * evalStress C e i) := by
  refine ⟨symBeamC_symm C i j, ?_, ?_, ?_⟩
  · unfold evalStress
    apply Finset.sum_congr rfl
    intro j2 hj2
    rw [symBeamC_tangent C C0 i j2 hi (Finset.mem_range.mp hj2)]
  · unfold evalStress
    rw [← Finset.sum_add_distrib]
    apply Finset.sum_congr rfl
    intro j2 _
    ring
  · unfold evalStress
    rw [Finset.mul_sum]
    apply Finset.sum_congr rfl
    intro j2 _
    ring

/-- Witness for C8 at entry (0, 1) with a concrete stiffness and strain. -/
theorem evalStress_linear_consistent_witness :
    (symBeamC (fun k => (k : ℝ) + 1) 0 1 = symBeamC (fun k => (k : ℝ) + 1) 1 0) ∧
    (evalStress (fun k => (k : ℝ) + 1) (fun k => (k : ℝ)) 0 =
      ∑ j2 in Finset.range 6,
        symBeamC (evalTangentStiffness (fun k => (k : ℝ) + 1) (fun _ => 0)) 0 j2 *
          (fun k => (k : ℝ)) j2) ∧
    (evalStress (fun k => (k : ℝ) + 1) (fun k => (fun k2 => (k2 : ℝ)) k + (fun _ => (1 : ℝ)) k) 0 =
      evalStress (fun k => (k : ℝ) + 1) (fun k => (k : ℝ)) 0 +
        evalStress (fun k => (k : ℝ) + 1) (fun _ => (1 : ℝ)) 0) ∧
    (evalStress (fun k => (k : ℝ) + 1) (fun k => (3 : ℝ) * (fun k2 => (k2 : ℝ)) k) 0 =
      3 * evalStress (fun k => (k : ℝ) + 1) (fun k => (k : ℝ)) 0) :=
  evalStress_linear_consistent (fun k => (k : ℝ) + 1) (fun _ => 0) (fun k => (k : ℝ))
    (fun _ => 1) 3 0 1 (by norm_num) (by norm_num)

/-- C10 counterexample: with the zero vector as (non-null) axis input, the
stored axis of the beam constitutive object is not a unit vector — its
squared norm is 0, not 1.  The claim as stated is therefore false; it
requires an axis of nonzero Euclidean length. -/
theorem normalizeAxis_zero_counterexample :
    normSq3 (getPropertiesAxis (normalizeAxis 0 0 0)) ≠ 1 := by
  simp [normalizeAxis, getPropertiesAxis, normSq3]

/-- C10 (amended): for every axis of nonzero Euclidean length, the stored
axis produced by the constructors / `setProperties` is a unit vector, and
`getProperties` returns exactly that normalized vector. -/
theorem normalizeAxis_unit (a0 a1 a2 : ℝ) (h : a0 * a0 + a1 * a1 + a2 * a2 ≠ 0) :
    normSq3 (getPropertiesAxis (normalizeAxis a0 a1 a2)) = 1 ∧
      getPropertiesAxis (normalizeAxis a0 a1 a2) = normalizeAxis a0 a1 a2 := by
  refine ⟨?_, rfl⟩
  have hS : 0 < a0 * a0 + a1 * a1 + a2 * a2 :=
    lt_of_le_of_ne
      (by nlinarith [mul_self_nonneg a0, mul_self_nonneg a1, mul_self_nonneg a2])
      (Ne.symm h)
  have hs : Real.sqrt (a0 * a0 + a1 * a1 + a2 * a2) ≠ 0 :=
    (Real.sqrt_pos.mpr hS).ne'
  have key : Real.sqrt (a0 * a0 + a1 * a1 + a2 * a2) *
      Real.sqrt (a0 * a0 + a1 * a1 + a2 * a2) = a0 * a0 + a1 * a1 + a2 * a2 :=
    Real.mul_self_sqrt hS.le
  simp only [normalizeAxis, getPropertiesAxis, normSq3]
  field_simp

/-- Witness for the amended C10 at axis (1, 2, 2). -/
theorem normalizeAxis_unit_witness :
    ((1 : ℝ) * 1 + 2 * 2 + 2 * 2 ≠ 0) ∧
      normSq3 (getPropertiesAxis (normalizeAxis 1 2 2)) = 1 :=
  ⟨by norm_num, (normalizeAxis_unit 1 2 2 (by norm_num)).1⟩

/-! ### C4: the order-2 element on the unit square -/

/-- Order-2 Lagrange shape values on the knots `{-1, 1}`: left factor. -/
theorem lag2_0 (x : ℝ) : lagrangeSF 2 (poissonKnots 2) x 0 = (1 - x) / 2 := by
  unfold lagrangeSF
  rw [show (Finset.range 2).erase 0 = {1} from by decide, Finset.prod_singleton]
  simp [poissonKnots]
  ring

/-- Order-2 Lagrange shape values on the knots `{-1, 1}`: right factor. -/
theorem lag2_1 (x : ℝ) : lagrangeSF 2 (poissonKnots 2) x 1 = (x + 1) / 2 := by
  unfold lagrangeSF
  rw [show (Finset.range 2).erase 1 = {0} from by decide, Finset.prod_singleton]
  simp [poissonKnots]
  ring

/-- Order-2 Lagrange derivative values: left factor. -/
theorem dlag2_0 (x : ℝ) : lagrangeSFDeriv 2 (poissonKnots 2) x 0 = -(1 / 2) := by
  unfold lagrangeSFDeriv
  rw [show (Finset.range 2).erase 0 = {1} from by decide, Finset.sum_singleton,
    show ({1} : Finset ℕ).erase 1 = ∅ from by decide, Finset.prod_empty,
    Finset.prod_singleton]
  simp [poissonKnots]
  norm_num

/-- Order-2 Lagrange derivative values: right factor. -/
theorem dlag2_1 (x : ℝ) : lagrangeSFDeriv 2 (poissonKnots 2) x 1 = 1 / 2 := by
  unfold lagrangeSFDeriv
  rw [show (Finset.range 2).erase 1 = {0} from by decide, Finset.sum_singleton,
    show ({0} : Finset ℕ).erase 0 = ∅ from by decide, Finset.prod_empty,
    Finset.prod_singleton]
  simp [poissonKnots]
  norm_num

/-- On the unit square the order-2 Jacobian transform is constant:
`Xd = [[1/2, 0], [0, 1/2]]`. -/
theorem Xd_unitSquare (x y : ℝ) :
    getJacobianTransform 2 (poissonKnots 2) unitSquareXpts x y =
      ⟨1 / 2, 0, 0, 1 / 2⟩ := by
  unfold getJacobianTransform
  simp only [Mat2.mk.injEq]
  refine ⟨?_, ?_, ?_, ?_⟩ <;>
    simp [Finset.sum_range_succ, shapeNa, shapeNb, lag2_0, lag2_1, dlag2_0,
      dlag2_1, unitSquareXpts] <;>
    ring

/-- On the unit square the order-2 Jacobian determinant is `1/4`. -/
theorem det2_unitSquare (x y : ℝ) :
    det2 (getJacobianTransform 2 (poissonKnots 2) unitSquareXpts x y) = 1 / 4 := by
  rw [Xd_unitSquare]
  simp [det2]
  norm_num

/-- C4: for the order-2 element on the unit square with unit source and zero
state, `addResidual` into a zero buffer produces `res[i] = -1/4` at every
node. -/
theorem addResidual_unit_square (i : ℕ) (hi : i < 4) :
    addResidual 2 gaussPts2 gaussWts2 (poissonKnots 2) (fun _ => 1) 0 unitSquareXpts
      (fun _ => 0) (fun _ => 0) (fun _ => 0) (fun _ => 0) i = -(1 / 4) := by
  rw [addResidual_eq]
  simp only [addInto, resTotal]
  rw [if_pos (show i < 2 * 2 by omega), zero_add]
  have hsum : ∀ x y : ℝ,
      (∑ j in Finset.range (2 * 2), shapeN 2 (poissonKnots 2) x y j *
        (fun _ : ℕ => (1 : ℝ)) j) = 1 := by
    intro x y
    simp only [mul_one]
    exact shapeN_sum_one 2 (by norm_num) x y
  simp only [resContrib, det2_unitSquare, hsum, mul_zero, Finset.sum_const_zero,
    Finset.sum_range_succ, Finset.sum_range_zero]
  simp only [gaussWts2, gaussPts2]
  norm_num
  interval_cases i <;>
    (simp [shapeN, lag2_0, lag2_1]
     ring)

/-- Witness for C4 at node 0. -/
theorem addResidual_unit_square_witness :
    (0 < 4) ∧
      addResidual 2 gaussPts2 gaussWts2 (poissonKnots 2) (fun _ => 1) 0 unitSquareXpts
        (fun _ => 0) (fun _ => 0) (fun _ => 0) (fun _ => 0) 0 = -(1 / 4) :=
  ⟨by norm_num, addResidual_unit_square 0 (by norm_num)⟩

end TACS
